import Mathlib

/-!
Verification of the alphabet-map core of libdatrie (`datrie/alpha-map.c`):
the range-compression structure mapping an external character space
(`AlphaChar`, a 32-bit unsigned code point) to a compact trie alphabet
(`TrieChar`), and its binary codec.

The linked list of `AlphaRange` records (fields `begin`, `end`, in insertion
order, head `first_range`, tail `last_range`) is embedded as a Lean list of
pairs, `.1` playing `begin` and `.2` playing `end`.  Machine integers are
embedded as `Nat` with explicit reductions modulo `2^32` (`AlphaChar`
arithmetic) and modulo `256` (`TrieChar` arithmetic) exactly where the C
performs them.
-/

/-- Size of the `AlphaChar` value space: `AlphaChar` is a 32-bit unsigned
integer, so all its arithmetic is modulo `2^32`. -/
def U32 : Nat := 4294967296

/-- Reduction of a `Nat` to an `AlphaChar` (32-bit unsigned) value. -/
def u32 (n : Nat) : Nat := n % U32

/-- Unsigned 32-bit subtraction `a - b` as the C `AlphaChar` difference
computes it (two's-complement wraparound), for `a` already reduced. -/
def sub32 (a b : Nat) : Nat := (a + U32 - u32 b) % U32

/-- Modelled from the spec: the compact code type `TrieChar` (declared in
`triedefs.h`, which is not part of the supplied sources) is a one-byte
unsigned type; its arithmetic is performed modulo its width, i.e. mod 256. -/
def trieCharMod (n : Nat) : Nat := n % 256

/-- Modelled from the spec: `TRIE_CHAR_MAX` (from `triedefs.h`, not in the
supplied sources) is the maximum representable compact value, the fixed
"unmapped character" sentinel, equal to the `TrieChar` type's maximum. -/
def TRIE_CHAR_MAX : Nat := 255

/-- Modelled from the spec: `ALPHA_CHAR_ERROR` (from `alpha-map.h`, not in
the supplied sources) is the dedicated "error" external-character sentinel,
the all-ones `AlphaChar` value. -/
def ALPHA_CHAR_ERROR : Nat := U32 - 1

/-- Signature constant of a binary alphabet-map block
(`#define ALPHAMAP_SIGNATURE 0xD9FCD9FC`). -/
def ALPHAMAP_SIGNATURE : Nat := 0xD9FCD9FC

/-- An `AlphaRange`: the pair `(begin, end)` of a closed interval of
external characters.  The `next` pointer of the C struct is the list
structure itself. -/
abbrev AlphaRange := Nat × Nat

/-- An `AlphaMap`: the ordered sequence of its ranges, first to last
(the C linked list from `first_range` to `last_range`). -/
abbrev AlphaMap := List AlphaRange

/-- `alpha_map_new`: a fresh map has no ranges (allocation is modelled as
always succeeding). -/
def alpha_map_new : AlphaMap := []

/-- `alpha_map_add_range`: rejects `begin > end` with return value `-1`
leaving the map untouched, otherwise appends the range at the tail and
returns `0`.  The C `malloc` failure branch is modelled as absent
(allocation always succeeds). -/
def alpha_map_add_range (m : AlphaMap) (b e : Nat) : Int × AlphaMap :=
  if e < b then (-1, m) else (0, m ++ [(b, e)])

/-- `alpha_map_get_total_ranges`: length of the range list. -/
def alpha_map_get_total_ranges (m : AlphaMap) : Nat := m.length

/-- Scan loop of `alpha_map_char_to_trie`: walks the range list with the
`TrieChar` accumulator `alpha_begin` (here `base`), skipping each range not
containing `ac` while adding `end - begin + 1` (mod 256, since the
accumulator is a `TrieChar`), and returning `alpha_begin + (ac - begin)`
(truncated to `TrieChar`) on the first containing range;
`TRIE_CHAR_MAX` when the list is exhausted. -/
def charToTrieGo (ac : Nat) : List AlphaRange → Nat → Nat
  | [], _ => TRIE_CHAR_MAX
  | r :: rs, base =>
    if ac < r.1 ∨ r.2 < ac then
      charToTrieGo ac rs (trieCharMod (base + (sub32 r.2 r.1 + 1)))
    else
      trieCharMod (base + sub32 ac r.1)

/-- `alpha_map_char_to_trie`: external character to compact code. -/
def alpha_map_char_to_trie (m : AlphaMap) (ac : Nat) : Nat :=
  if ac = 0 then 0 else charToTrieGo ac m 1

/-- Scan loop of `alpha_map_trie_to_char`: continues past a range while
`alpha_begin + (end - begin) < tc` (the sum computed in 32-bit unsigned
arithmetic after integer promotion), accumulating as in the forward scan;
on stopping at a range returns `begin + (tc - alpha_begin)`, which the C
computes as `int` subtraction then `AlphaChar` (mod `2^32`) addition;
`ALPHA_CHAR_ERROR` when the list is exhausted. -/
def trieToCharGo (tc : Nat) : List AlphaRange → Nat → Nat
  | [], _ => ALPHA_CHAR_ERROR
  | r :: rs, base =>
    if u32 (base + sub32 r.2 r.1) < tc then
      trieToCharGo tc rs (trieCharMod (base + (sub32 r.2 r.1 + 1)))
    else
      (((r.1 : Int) + tc - base) % (U32 : Int)).toNat

/-- `alpha_map_trie_to_char`: compact code back to external character. -/
def alpha_map_trie_to_char (m : AlphaMap) (tc : Nat) : Nat :=
  if tc = 0 then 0 else trieToCharGo tc m 1

/-- A stream of 32-bit values with a read position: the `FILE*` as the
`file_read_int32` / `file_write_int32` collaborators see it, with `pos`
playing `ftell` and rebuilding the structure at an earlier `pos` playing
`fseek`. -/
structure Stream32 where
  data : List Nat
  pos : Nat

/-- `file_read_int32` collaborator: yields the 32-bit value at the current
position and advances, or fails at end of stream. -/
def file_read_int32 (s : Stream32) : Option (Nat × Stream32) :=
  match s.data[s.pos]? with
  | none => none
  | some v => some (u32 v, ⟨s.data, s.pos + 1⟩)

/-- An unchecked `file_read_int32` as `alpha_map_read_bin` performs it for
the count and the range bounds: the C ignores the success flag, leaving the
output variable unset on failure; the spec notes truncated input yields
"zero-valued trailing ranges", so a failed read is modelled as value 0 with
the stream unmoved. -/
def readInt32D (s : Stream32) : Nat × Stream32 :=
  match file_read_int32 s with
  | none => (0, s)
  | some vs => vs

/-- Reinterpretation of a 32-bit value as the signed `int32` the C stores
the range count in. -/
def toSigned32 (n : Nat) : Int :=
  if n < 2147483648 then (n : Int) else (n : Int) - (U32 : Int)

/-- Range-reading loop of `alpha_map_read_bin`: `total` iterations, each
reading `begin` then `end` and handing them to `alpha_map_add_range`
(whose return value the C ignores). -/
def readRangesGo : Nat → AlphaMap → Stream32 → AlphaMap × Stream32
  | 0, m, s => (m, s)
  | k + 1, m, s =>
    let bs := readInt32D s
    let es := readInt32D bs.2
    readRangesGo k (alpha_map_add_range m bs.1 es.1).2 es.2

/-- `alpha_map_read_bin`: saves the position, reads the signature word; on
read failure or mismatch seeks back to the saved position and yields no
map.  Otherwise creates a fresh map, reads the count as `int32` and loops
`for (i = 0; i < total; i++)` (so a negative count reads nothing), reading
and appending range pairs. -/
def alpha_map_read_bin (s : Stream32) : Option AlphaMap × Stream32 :=
  match file_read_int32 s with
  | none => (none, ⟨s.data, s.pos⟩)
  | some (sig, s1) =>
    if sig = ALPHAMAP_SIGNATURE then
      let ts := readInt32D s1
      let res := readRangesGo (toSigned32 ts.1).toNat alpha_map_new ts.2
      (some res.1, res.2)
    else
      (none, ⟨s.data, s.pos⟩)

/-- The sequence of 32-bit words `alpha_map_write_bin` emits for the range
list: `begin` then `end` of each range in order. -/
def rangeWords : List AlphaRange → List Nat
  | [] => []
  | r :: rs => u32 r.1 :: u32 r.2 :: rangeWords rs

/-- `alpha_map_write_bin`: signature, count, then the range pairs in
sequence order.  The underlying `file_write_int32` collaborator is modelled
as succeeding, so the emitted word sequence is returned (on a write failure
the C stops with `-1`, leaving a truncated block). -/
def alpha_map_write_bin (m : AlphaMap) : List Nat :=
  ALPHAMAP_SIGNATURE :: u32 m.length :: rangeWords m

/-- Total compact-code space of a range list: `Σ (end - begin + 1)`. -/
def sumSizes : List AlphaRange → Nat
  | [] => 0
  | r :: rs => (r.2 - r.1 + 1) + sumSizes rs

/-- The subsequence of decoded pairs that `alpha_map_add_range` accepts:
exactly those with `begin ≤ end`. -/
def keepValid : List AlphaRange → List AlphaRange
  | [] => []
  | q :: ps => if q.2 < q.1 then keepValid ps else q :: keepValid ps

/-- The example map of the spec, built by inserting `[0x41,0x5A]` then
`[0x61,0x7A]` through `alpha_map_add_range`. -/
def exMap : AlphaMap :=
  (alpha_map_add_range (alpha_map_add_range alpha_map_new 0x41 0x5A).2 0x61 0x7A).2

theorem u32_of_lt {n : Nat} (h : n < U32) : u32 n = n := by
  unfold u32 U32 at *
  omega

theorem sub32_of_le {a b : Nat} (hba : b ≤ a) (ha : a < U32) : sub32 a b = a - b := by
  unfold sub32 u32 U32 at *
  omega

theorem trieCharMod_of_lt {n : Nat} (h : n < 256) : trieCharMod n = n := by
  unfold trieCharMod
  omega

/-- Claim C10: for every alphabet map, including the empty one, external
character 0 maps to compact code 0 and compact code 0 maps back to external
character 0. -/
theorem C10_zero_preservation (m : AlphaMap) :
    alpha_map_char_to_trie m 0 = 0 ∧ alpha_map_trie_to_char m 0 = 0 := by
  constructor <;> rfl

/-- Claim C7: `alpha_map_add_range` on a pair with `begin > end` returns the
error result `-1` and leaves the map's range sequence exactly as it was. -/
theorem C7_invalid_range_rejected (m : AlphaMap) (b e : Nat) (h : e < b) :
    alpha_map_add_range m b e = (-1, m) := by
  simp [alpha_map_add_range, h]

/-- Concrete instance of `C7_invalid_range_rejected` at the map `[(1,3)]`
and the invalid pair `(5, 2)`. -/
theorem C7_invalid_range_rejected_witness :
    alpha_map_add_range [(1, 3)] 5 2 = (-1, [(1, 3)]) :=
  C7_invalid_range_rejected [(1, 3)] 5 2 (by decide)

/-- Claim C8: when the first 32-bit value of the stream is readable but is
not the signature, `alpha_map_read_bin` yields no map and the stream is
returned with its read position exactly as before the call. -/
theorem C8_signature_mismatch (s : Stream32) (v : Nat) (s' : Stream32)
    (hr : file_read_int32 s = some (v, s')) (hv : v ≠ ALPHAMAP_SIGNATURE) :
    alpha_map_read_bin s = (none, s) := by
  unfold alpha_map_read_bin
  rw [hr]
  simp [hv]

/-- Concrete instance of `C8_signature_mismatch` on the stream `[7, 9]`
read from position 0. -/
theorem C8_signature_mismatch_witness :
    alpha_map_read_bin ⟨[7, 9], 0⟩ = (none, ⟨[7, 9], 0⟩) :=
  C8_signature_mismatch ⟨[7, 9], 0⟩ 7 ⟨[7, 9], 1⟩ rfl (by decide)

/-- Claim C1 as stated is false: in the map with the single accepted range
`[1, 300]`, the character `256` lies inside the range, yet its compact code
wraps in the `TrieChar` accumulator to `0`, and the round trip returns `0`,
not `256`. -/
theorem C1_roundtrip_cex :
    ((1 : Nat) ≤ 256 ∧ (256 : Nat) ≤ 300) ∧
      alpha_map_char_to_trie [(1, 300)] 256 = 0 ∧
      alpha_map_trie_to_char [(1, 300)] (alpha_map_char_to_trie [(1, 300)] 256) = 0 := by
  decide

/-- Claim C4 as stated is false: decoding the stream
`signature, count 1, pair (5, 2)` yields a map with no ranges at all —
`alpha_map_add_range` rejects the decoded pair because `5 > 2`, so not all
decoded pairs appear in the resulting map. -/
theorem C4_read_bin_cex :
    (5 : Nat) > 2 ∧
      (alpha_map_read_bin ⟨[ALPHAMAP_SIGNATURE, 1, 5, 2], 0⟩).1 = some [] := by
  constructor
  · decide
  · rfl

/-- Claim C5 as stated is false on three counts: in the map `[(0, 5)]` the
in-range character `0` is mapped to the reserved code `0`; in the map
`[(1, 255)]` the in-range character `255` is mapped exactly to the maximum
sentinel `TRIE_CHAR_MAX`; and in the map `[(1, 300)]` the in-range
character `256` wraps to code `0`. -/
theorem C5_sentinel_disjoint_cex :
    alpha_map_char_to_trie [(0, 5)] 0 = 0 ∧
      alpha_map_char_to_trie [(1, 255)] 255 = TRIE_CHAR_MAX ∧
      alpha_map_char_to_trie [(1, 300)] 256 = 0 := by
  decide

/-- Claim C6 as stated is false: with `R1 = [1, 255]` and `R2 = [300, 300]`
inserted in that order (and `R1.end = 255 < 300 = R2.begin`), the character
`255` of `R1` gets compact code `255` while the character `300` of `R2`
gets compact code `0` by `TrieChar` wraparound, so the `R1` code is not
below the `R2` code. -/
theorem C6_monotone_cex :
    alpha_map_char_to_trie [(1, 255), (300, 300)] 255 = 255 ∧
      alpha_map_char_to_trie [(1, 255), (300, 300)] 300 = 0 ∧
      ¬ alpha_map_char_to_trie [(1, 255), (300, 300)] 255 <
          alpha_map_char_to_trie [(1, 255), (300, 300)] 300 := by
  decide

theorem sumSizes_cons (r : AlphaRange) (rs : List AlphaRange) :
    sumSizes (r :: rs) = (r.2 - r.1 + 1) + sumSizes rs := rfl

theorem U32_eq : U32 = 4294967296 := rfl

/-- Bounds of the forward scan: when the accumulator plus the remaining
compact-code budget fits below the `TrieChar` wraparound, the code found
for a covered character lies in `[base, base + sumSizes rs)`. -/
theorem charToTrieGo_bounds (rs : List AlphaRange) : ∀ (base c : Nat),
    (∀ r ∈ rs, r.1 ≤ r.2 ∧ r.2 < U32) → 1 ≤ base → base + sumSizes rs ≤ 256 →
    (∃ r ∈ rs, r.1 ≤ c ∧ c ≤ r.2) →
    base ≤ charToTrieGo c rs base ∧ charToTrieGo c rs base < base + sumSizes rs := by
  induction rs with
  | nil =>
    intro base c _ _ _ hex
    simp at hex
  | cons r rs ih =>
    intro base c hv hb hs hex
    have hvr := hv r (List.mem_cons_self r rs)
    rw [sumSizes_cons] at hs ⊢
    by_cases hin : c < r.1 ∨ r.2 < c
    · have hex' : ∃ q ∈ rs, q.1 ≤ c ∧ c ≤ q.2 := by
        obtain ⟨q, hq, hq1, hq2⟩ := hex
        rcases List.mem_cons.mp hq with rfl | hq'
        · omega
        · exact ⟨q, hq', hq1, hq2⟩
      have hpos : 1 ≤ sumSizes rs := by
        obtain ⟨q, hq, -, -⟩ := hex'
        cases rs with
        | nil => cases hq
        | cons a as => rw [sumSizes_cons]; omega
      have hsz : sub32 r.2 r.1 = r.2 - r.1 := sub32_of_le hvr.1 hvr.2
      have hlt : base + (r.2 - r.1 + 1) < 256 := by omega
      have hstep : charToTrieGo c (r :: rs) base
          = charToTrieGo c rs (base + (r.2 - r.1 + 1)) := by
        simp only [charToTrieGo, if_pos hin, hsz, trieCharMod_of_lt hlt]
      have hmain := ih (base + (r.2 - r.1 + 1)) c
        (fun q hq => hv q (List.mem_cons_of_mem r hq)) (by omega) (by omega) hex'
      rw [hstep]
      omega
    · push_neg at hin
      have hsub : sub32 c r.1 = c - r.1 :=
        sub32_of_le hin.1 (lt_of_le_of_lt hin.2 hvr.2)
      have hlt : base + (c - r.1) < 256 := by omega
      have hstep : charToTrieGo c (r :: rs) base = base + (c - r.1) := by
        simp only [charToTrieGo, if_neg (by omega : ¬(c < r.1 ∨ r.2 < c)), hsub,
          trieCharMod_of_lt hlt]
      rw [hstep]
      omega

/-- Round trip of the two scans: under the same no-wraparound budget, the
reverse scan started from the same accumulator recovers the character the
forward scan encoded. -/
theorem trieToCharGo_charToTrieGo (rs : List AlphaRange) : ∀ (base c : Nat),
    (∀ r ∈ rs, r.1 ≤ r.2 ∧ r.2 < U32) → 1 ≤ base → base + sumSizes rs ≤ 256 →
    (∃ r ∈ rs, r.1 ≤ c ∧ c ≤ r.2) →
    trieToCharGo (charToTrieGo c rs base) rs base = c := by
  induction rs with
  | nil =>
    intro base c _ _ _ hex
    simp at hex
  | cons r rs ih =>
    intro base c hv hb hs hex
    have hvr := hv r (List.mem_cons_self r rs)
    have hsz : sub32 r.2 r.1 = r.2 - r.1 := sub32_of_le hvr.1 hvr.2
    rw [sumSizes_cons] at hs
    by_cases hin : c < r.1 ∨ r.2 < c
    · have hex' : ∃ q ∈ rs, q.1 ≤ c ∧ c ≤ q.2 := by
        obtain ⟨q, hq, hq1, hq2⟩ := hex
        rcases List.mem_cons.mp hq with rfl | hq'
        · omega
        · exact ⟨q, hq', hq1, hq2⟩
      have hpos : 1 ≤ sumSizes rs := by
        obtain ⟨q, hq, -, -⟩ := hex'
        cases rs with
        | nil => cases hq
        | cons a as => rw [sumSizes_cons]; omega
      have hlt : base + (r.2 - r.1 + 1) < 256 := by omega
      have hv' : ∀ q ∈ rs, q.1 ≤ q.2 ∧ q.2 < U32 :=
        fun q hq => hv q (List.mem_cons_of_mem r hq)
      have hstep : charToTrieGo c (r :: rs) base
          = charToTrieGo c rs (base + (r.2 - r.1 + 1)) := by
        simp only [charToTrieGo, if_pos hin, hsz, trieCharMod_of_lt hlt]
      have hbnd := charToTrieGo_bounds rs (base + (r.2 - r.1 + 1)) c hv'
        (by omega) (by omega) hex'
      have hcond : u32 (base + (r.2 - r.1)) < charToTrieGo c rs (base + (r.2 - r.1 + 1)) := by
        rw [u32_of_lt (by rw [U32_eq]; omega)]
        omega
      have hstep2 : trieToCharGo (charToTrieGo c rs (base + (r.2 - r.1 + 1))) (r :: rs) base
          = trieToCharGo (charToTrieGo c rs (base + (r.2 - r.1 + 1))) rs (base + (r.2 - r.1 + 1)) := by
        simp only [trieToCharGo, hsz, if_pos hcond, trieCharMod_of_lt hlt]
      rw [hstep, hstep2]
      exact ih (base + (r.2 - r.1 + 1)) c hv' (by omega) (by omega) hex'
    · push_neg at hin
      have hcU : c < U32 := lt_of_le_of_lt hin.2 hvr.2
      have hsub : sub32 c r.1 = c - r.1 := sub32_of_le hin.1 hcU
      have hlt : base + (c - r.1) < 256 := by omega
      have hstep : charToTrieGo c (r :: rs) base = base + (c - r.1) := by
        simp only [charToTrieGo, if_neg (by omega : ¬(c < r.1 ∨ r.2 < c)), hsub,
          trieCharMod_of_lt hlt]
      have hcond : ¬ u32 (base + sub32 r.2 r.1) < base + (c - r.1) := by
        rw [hsz, u32_of_lt (by rw [U32_eq]; omega)]
        omega
      have hstep2 : trieToCharGo (base + (c - r.1)) (r :: rs) base
          = (((r.1 : Int) + ((base + (c - r.1) : Nat) : Int) - (base : Int))
              % ((U32 : Nat) : Int)).toNat := by
        simp only [trieToCharGo, if_neg hcond]
      rw [hstep, hstep2]
      rw [U32_eq] at hcU ⊢
      omega

/-- Claim C1 amended: for every alphabet map (whose ranges satisfy the
insertion invariant `begin ≤ end` over 32-bit characters) whose total
compact size `Σ (end - begin + 1)` is at most 255 — so every assigned code
fits the `TrieChar` type without wrapping — and every character inside one
of its ranges, `alpha_map_trie_to_char` inverts `alpha_map_char_to_trie`. -/
theorem C1_roundtrip_amended (m : AlphaMap) (c : Nat)
    (hv : ∀ r ∈ m, r.1 ≤ r.2 ∧ r.2 < U32)
    (hs : sumSizes m ≤ 255)
    (hc : ∃ r ∈ m, r.1 ≤ c ∧ c ≤ r.2) :
    alpha_map_trie_to_char m (alpha_map_char_to_trie m c) = c := by
  by_cases h0 : c = 0
  · subst h0
    rfl
  · have hb := charToTrieGo_bounds m 1 c hv le_rfl (by omega) hc
    have hr := trieToCharGo_charToTrieGo m 1 c hv le_rfl (by omega) hc
    unfold alpha_map_char_to_trie alpha_map_trie_to_char
    rw [if_neg h0, if_neg (by omega : ¬ charToTrieGo c m 1 = 0)]
    exact hr

/-- Concrete instance of `C1_roundtrip_amended` on the map
`[(0x41, 0x5A)]` at the character `0x42`. -/
theorem C1_roundtrip_amended_witness :
    alpha_map_trie_to_char [(0x41, 0x5A)]
      (alpha_map_char_to_trie [(0x41, 0x5A)] 0x42) = 0x42 :=
  C1_roundtrip_amended [(0x41, 0x5A)] 0x42 (by decide) (by decide) (by decide)

/-- Claim C5 amended: for every alphabet map whose total compact size is at
most 254 (leaving the value `TRIE_CHAR_MAX` itself out of the assignable
budget) and every nonzero character inside one of its ranges, the compact
code is neither the reserved terminator `0` nor the maximum sentinel. -/
theorem C5_sentinel_disjoint_amended (m : AlphaMap) (c : Nat)
    (hv : ∀ r ∈ m, r.1 ≤ r.2 ∧ r.2 < U32)
    (hs : sumSizes m ≤ 254)
    (hc0 : c ≠ 0)
    (hc : ∃ r ∈ m, r.1 ≤ c ∧ c ≤ r.2) :
    alpha_map_char_to_trie m c ≠ 0 ∧
      alpha_map_char_to_trie m c ≠ TRIE_CHAR_MAX := by
  have hb := charToTrieGo_bounds m 1 c hv le_rfl (by omega) hc
  unfold alpha_map_char_to_trie TRIE_CHAR_MAX
  rw [if_neg hc0]
  omega

/-- Concrete instance of `C5_sentinel_disjoint_amended` on the map
`[(0x41, 0x5A)]` at the character `0x5A`. -/
theorem C5_sentinel_disjoint_amended_witness :
    alpha_map_char_to_trie [(0x41, 0x5A)] 0x5A ≠ 0 ∧
      alpha_map_char_to_trie [(0x41, 0x5A)] 0x5A ≠ TRIE_CHAR_MAX :=
  C5_sentinel_disjoint_amended [(0x41, 0x5A)] 0x5A (by decide) (by decide)
    (by decide) (by decide)

/-- Spec-style characterization of the forward scan: when every range of a
prefix misses the character and a later range contains it, the code is the
running base `1 + Σ` of the skipped sizes plus the offset into the matched
range, truncated to `TrieChar`. -/
theorem charToTrieGo_found (c : Nat) : ∀ (pre : List AlphaRange),
    ∀ (r : AlphaRange) (post : List AlphaRange) (base : Nat),
    (∀ q ∈ pre, (q.1 ≤ q.2 ∧ q.2 < U32) ∧ (c < q.1 ∨ q.2 < c)) →
    r.1 ≤ c → c ≤ r.2 → c < U32 →
    charToTrieGo c (pre ++ r :: post) base
      = (base + sumSizes pre + (c - r.1)) % 256 := by
  intro pre
  induction pre with
  | nil =>
    intro r post base _ h1 h2 hU
    have hsub : sub32 c r.1 = c - r.1 := sub32_of_le h1 hU
    simp only [List.nil_append, charToTrieGo,
      if_neg (by omega : ¬(c < r.1 ∨ r.2 < c)), hsub, trieCharMod, sumSizes]
    omega
  | cons q pre ih =>
    intro r post base hpre h1 h2 hU
    have hq := hpre q (List.mem_cons_self q pre)
    have hsq : sub32 q.2 q.1 = q.2 - q.1 := sub32_of_le hq.1.1 hq.1.2
    have hstep : charToTrieGo c ((q :: pre) ++ r :: post) base
        = charToTrieGo c (pre ++ r :: post) (trieCharMod (base + (q.2 - q.1 + 1))) := by
      simp only [List.cons_append, charToTrieGo, if_pos hq.2, hsq]
      rfl
    rw [hstep, ih r post _ (fun p hp => hpre p (List.mem_cons_of_mem q hp)) h1 h2 hU]
    rw [sumSizes_cons]
    simp only [trieCharMod]
    omega

/-- Claim C2: `alpha_map_char_to_trie` scans ranges in insertion order with
an accumulator starting at 1, adds `end - begin + 1` for each skipped range
and returns `accumulator + (c - begin)` for the first range containing `c`
(the arithmetic performed in the `TrieChar` type, hence the reduction mod
256); in particular, on the map built from `[0x41, 0x5A]` then
`[0x61, 0x7A]` it maps 0x41 to 1, 0x5A to 26, 0x61 to 27, 0x7A to 52, and
the uncovered 0x30 to the maximum sentinel. -/
theorem C2_char_to_trie_algorithm (pre post : List AlphaRange) (r : AlphaRange)
    (c : Nat)
    (hpre : ∀ q ∈ pre, (q.1 ≤ q.2 ∧ q.2 < U32) ∧ (c < q.1 ∨ q.2 < c))
    (h1 : r.1 ≤ c) (h2 : c ≤ r.2) (hU : c < U32) (h0 : c ≠ 0) :
    alpha_map_char_to_trie (pre ++ r :: post) c
        = (1 + sumSizes pre + (c - r.1)) % 256 ∧
      (alpha_map_char_to_trie exMap 0x41 = 1 ∧
       alpha_map_char_to_trie exMap 0x5A = 26 ∧
       alpha_map_char_to_trie exMap 0x61 = 27 ∧
       alpha_map_char_to_trie exMap 0x7A = 52 ∧
       alpha_map_char_to_trie exMap 0x30 = TRIE_CHAR_MAX) := by
  refine ⟨?_, by decide⟩
  unfold alpha_map_char_to_trie
  rw [if_neg h0]
  exact charToTrieGo_found c pre r post 1 hpre h1 h2 hU

/-- Concrete instance of `C2_char_to_trie_algorithm`: the character `0x42`
found in the first range of the example map, with no skipped ranges. -/
theorem C2_char_to_trie_algorithm_witness :
    alpha_map_char_to_trie ([] ++ (0x41, 0x5A) :: [(0x61, 0x7A)]) 0x42
        = (1 + sumSizes [] + (0x42 - (0x41, 0x5A).1)) % 256 ∧
      (alpha_map_char_to_trie exMap 0x41 = 1 ∧
       alpha_map_char_to_trie exMap 0x5A = 26 ∧
       alpha_map_char_to_trie exMap 0x61 = 27 ∧
       alpha_map_char_to_trie exMap 0x7A = 52 ∧
       alpha_map_char_to_trie exMap 0x30 = TRIE_CHAR_MAX) :=
  C2_char_to_trie_algorithm [] [(0x61, 0x7A)] (0x41, 0x5A) 0x42
    (by intro q hq; cases hq) (by decide) (by decide) (by decide) (by decide)

/-- Claim C6 amended: for two ranges `R1`, `R2` inserted in that order with
`R1.end < R2.begin`, provided their combined compact size fits the
`TrieChar` budget (`Σ (end - begin + 1) ≤ 255`, so no wraparound occurs),
every compact code assigned to a character of `R1` is strictly below every
compact code assigned to a character of `R2`. -/
theorem C6_monotone_amended (b1 e1 b2 e2 c1 c2 : Nat)
    (h11 : b1 ≤ e1) (h22 : b2 ≤ e2) (h12 : e1 < b2) (hU : e2 < U32)
    (hs : (e1 - b1 + 1) + (e2 - b2 + 1) ≤ 255)
    (hc1 : b1 ≤ c1) (hc1e : c1 ≤ e1) (hc2 : b2 ≤ c2) (hc2e : c2 ≤ e2) :
    alpha_map_char_to_trie [(b1, e1), (b2, e2)] c1 <
      alpha_map_char_to_trie [(b1, e1), (b2, e2)] c2 := by
  have hU1 : e1 < U32 := by omega
  have hc2ne : c2 ≠ 0 := by omega
  have h2code : alpha_map_char_to_trie [(b1, e1), (b2, e2)] c2
      = (1 + sumSizes [(b1, e1)] + (c2 - b2)) % 256 := by
    unfold alpha_map_char_to_trie
    rw [if_neg hc2ne]
    exact charToTrieGo_found c2 [(b1, e1)] (b2, e2) [] 1
      (by
        intro q hq
        rcases List.mem_singleton.mp hq with rfl
        exact ⟨⟨h11, hU1⟩, Or.inr (by omega)⟩)
      hc2 hc2e (by omega)
  have hsum1 : sumSizes [(b1, e1)] = e1 - b1 + 1 := by
    rw [sumSizes_cons]
    rfl
  have h2val : alpha_map_char_to_trie [(b1, e1), (b2, e2)] c2
      = 1 + (e1 - b1 + 1) + (c2 - b2) := by
    rw [h2code, hsum1, Nat.mod_eq_of_lt (by omega)]
  by_cases h0 : c1 = 0
  · rw [h0, h2val]
    show alpha_map_char_to_trie [(b1, e1), (b2, e2)] 0 < _
    rw [show alpha_map_char_to_trie [(b1, e1), (b2, e2)] 0 = 0 from rfl]
    omega
  · have h1code : alpha_map_char_to_trie [(b1, e1), (b2, e2)] c1
        = (1 + sumSizes [] + (c1 - b1)) % 256 := by
      unfold alpha_map_char_to_trie
      rw [if_neg h0]
      exact charToTrieGo_found c1 [] (b1, e1) [(b2, e2)] 1
        (by intro q hq; cases hq) hc1 hc1e (by omega)
    have h1val : alpha_map_char_to_trie [(b1, e1), (b2, e2)] c1 = 1 + (c1 - b1) := by
      rw [h1code, show sumSizes [] = 0 from rfl, Nat.mod_eq_of_lt (by omega)]
    rw [h1val, h2val]
    omega

/-- Concrete instance of `C6_monotone_amended` on the ranges `[0x41, 0x5A]`
and `[0x61, 0x7A]` at the characters `0x50` and `0x70`. -/
theorem C6_monotone_amended_witness :
    alpha_map_char_to_trie [(0x41, 0x5A), (0x61, 0x7A)] 0x50 <
      alpha_map_char_to_trie [(0x41, 0x5A), (0x61, 0x7A)] 0x70 :=
  C6_monotone_amended 0x41 0x5A 0x61 0x7A 0x50 0x70 (by decide) (by decide)
    (by decide) (by decide) (by decide) (by decide) (by decide) (by decide)
    (by decide)

/-- Exhausted forward scan: a character contained in no range makes the
loop run off the end of the list, whatever the accumulator does. -/
theorem charToTrieGo_exhaust (c : Nat) : ∀ (rs : List AlphaRange) (base : Nat),
    (∀ r ∈ rs, c < r.1 ∨ r.2 < c) → charToTrieGo c rs base = TRIE_CHAR_MAX := by
  intro rs
  induction rs with
  | nil =>
    intro base _
    rfl
  | cons r rs ih =>
    intro base h
    simp only [charToTrieGo, if_pos (h r (List.mem_cons_self r rs))]
    exact ih _ (fun q hq => h q (List.mem_cons_of_mem r hq))

/-- Exhausted reverse scan: a compact code beyond the accumulated budget
makes the loop skip every range and fail with the error character. -/
theorem trieToCharGo_exhaust (tc : Nat) : ∀ (rs : List AlphaRange) (base : Nat),
    (∀ r ∈ rs, r.1 ≤ r.2 ∧ r.2 < U32) → 1 ≤ base → base + sumSizes rs ≤ tc →
    tc ≤ 255 → trieToCharGo tc rs base = ALPHA_CHAR_ERROR := by
  intro rs
  induction rs with
  | nil =>
    intro base _ _ _ _
    rfl
  | cons r rs ih =>
    intro base hv hb hs htc
    have hvr := hv r (List.mem_cons_self r rs)
    have hsz : sub32 r.2 r.1 = r.2 - r.1 := sub32_of_le hvr.1 hvr.2
    rw [sumSizes_cons] at hs
    have hcond : u32 (base + (r.2 - r.1)) < tc := by
      rw [u32_of_lt (by rw [U32_eq]; omega)]
      omega
    have hb' : base + (r.2 - r.1 + 1) < 256 := by omega
    simp only [trieToCharGo, hsz, if_pos hcond, trieCharMod_of_lt hb']
    exact ih (base + (r.2 - r.1 + 1))
      (fun q hq => hv q (List.mem_cons_of_mem r hq)) (by omega) (by omega) htc

/-- Claim C9: a nonzero character covered by no range is mapped to the
maximum compact sentinel `TRIE_CHAR_MAX`, and a nonzero compact code beyond
the map's assigned code space (`tc > Σ sizes`, within the `TrieChar` value
range) is mapped back to the error character `ALPHA_CHAR_ERROR`. -/
theorem C9_unmapped_sentinels (m : AlphaMap) (c tc : Nat)
    (hv : ∀ r ∈ m, r.1 ≤ r.2 ∧ r.2 < U32)
    (hc0 : c ≠ 0) (hcn : ∀ r ∈ m, c < r.1 ∨ r.2 < c)
    (htc0 : tc ≠ 0) (htcmax : tc ≤ 255) (hbeyond : sumSizes m < tc) :
    alpha_map_char_to_trie m c = TRIE_CHAR_MAX ∧
      alpha_map_trie_to_char m tc = ALPHA_CHAR_ERROR := by
  constructor
  · unfold alpha_map_char_to_trie
    rw [if_neg hc0]
    exact charToTrieGo_exhaust c m 1 hcn
  · unfold alpha_map_trie_to_char
    rw [if_neg htc0]
    exact trieToCharGo_exhaust tc m 1 hv le_rfl (by omega) htcmax

/-- Concrete instance of `C9_unmapped_sentinels` on the map
`[(0x41, 0x5A)]`: the uncovered character `0x30` and the out-of-space
compact code `40`. -/
theorem C9_unmapped_sentinels_witness :
    alpha_map_char_to_trie [(0x41, 0x5A)] 0x30 = TRIE_CHAR_MAX ∧
      alpha_map_trie_to_char [(0x41, 0x5A)] 40 = ALPHA_CHAR_ERROR :=
  C9_unmapped_sentinels [(0x41, 0x5A)] 0x30 40 (by decide) (by decide)
    (by decide) (by decide) (by decide) (by decide)

theorem getElem_at_len (front : List Nat) (v : Nat) (t : List Nat) :
    (front ++ v :: t)[front.length]? = some v := by
  induction front with
  | nil => simp
  | cons a front ih => simpa using ih

theorem keepValid_cons (q : AlphaRange) (ps : List AlphaRange) :
    keepValid (q :: ps) = if q.2 < q.1 then keepValid ps else q :: keepValid ps := rfl

/-- One successful `file_read_int32` at a structured position: yields the
word there and advances by one. -/
theorem file_read_int32_at (front : List Nat) (v : Nat) (t : List Nat) (hv : v < U32) :
    file_read_int32 ⟨front ++ v :: t, front.length⟩
      = some (v, ⟨front ++ v :: t, front.length + 1⟩) := by
  unfold file_read_int32
  dsimp only
  rw [getElem_at_len]
  dsimp only
  rw [u32_of_lt hv]

/-- One unchecked read at a structured position: yields the word there and
advances by one. -/
theorem readInt32D_at (front : List Nat) (v : Nat) (t : List Nat) (hv : v < U32) :
    readInt32D ⟨front ++ v :: t, front.length⟩
      = (v, ⟨front ++ v :: t, front.length + 1⟩) := by
  unfold readInt32D
  rw [file_read_int32_at front v t hv]

theorem readRangesGo_succ (k : Nat) (m : AlphaMap) (s : Stream32) :
    readRangesGo (k + 1) m s
      = readRangesGo k
          (alpha_map_add_range m (readInt32D s).1 (readInt32D (readInt32D s).2).1).2
          (readInt32D (readInt32D s).2).2 := rfl

/-- The range-reading loop consumes exactly the serialized pairs, appending
the ones `alpha_map_add_range` accepts, in order, and leaves the position
right after them. -/
theorem readRangesGo_spec : ∀ (ps : List AlphaRange) (m0 : AlphaMap)
    (front rest : List Nat),
    (∀ q ∈ ps, q.1 < U32 ∧ q.2 < U32) →
    readRangesGo ps.length m0 ⟨front ++ (rangeWords ps ++ rest), front.length⟩
      = (m0 ++ keepValid ps,
         ⟨front ++ (rangeWords ps ++ rest), front.length + 2 * ps.length⟩) := by
  intro ps
  induction ps with
  | nil =>
    intro m0 front rest _
    simp [readRangesGo, rangeWords, keepValid]
  | cons q ps ih =>
    intro m0 front rest hq
    have hq1 := (hq q (List.mem_cons_self q ps)).1
    have hq2 := (hq q (List.mem_cons_self q ps)).2
    have hqs : ∀ p ∈ ps, p.1 < U32 ∧ p.2 < U32 :=
      fun p hp => hq p (List.mem_cons_of_mem q hp)
    have e1 : rangeWords (q :: ps) ++ rest = q.1 :: q.2 :: (rangeWords ps ++ rest) := by
      simp [rangeWords, u32_of_lt hq1, u32_of_lt hq2]
    rw [e1]
    have hr1 : readInt32D ⟨front ++ q.1 :: q.2 :: (rangeWords ps ++ rest), front.length⟩
        = (q.1, ⟨front ++ q.1 :: q.2 :: (rangeWords ps ++ rest), front.length + 1⟩) :=
      readInt32D_at front q.1 _ hq1
    have hr2 : readInt32D ⟨front ++ q.1 :: q.2 :: (rangeWords ps ++ rest), front.length + 1⟩
        = (q.2, ⟨front ++ q.1 :: q.2 :: (rangeWords ps ++ rest), front.length + 2⟩) := by
      have h2 := readInt32D_at (front ++ [q.1]) q.2 (rangeWords ps ++ rest) hq2
      simpa using h2
    rw [show (q :: ps).length = ps.length + 1 from rfl, readRangesGo_succ, hr1]
    dsimp only
    rw [hr2]
    dsimp only
    have e2 : front ++ q.1 :: q.2 :: (rangeWords ps ++ rest)
        = (front ++ [q.1, q.2]) ++ (rangeWords ps ++ rest) := by simp
    have e3 : front.length + 2 = (front ++ [q.1, q.2]).length := by simp
    rw [e2, e3, ih (alpha_map_add_range m0 q.1 q.2).2 (front ++ [q.1, q.2]) rest hqs]
    refine Prod.ext ?_ ?_
    · show (alpha_map_add_range m0 q.1 q.2).2 ++ keepValid ps = m0 ++ keepValid (q :: ps)
      rw [keepValid_cons]
      by_cases hbe : q.2 < q.1
      · simp [alpha_map_add_range, hbe]
      · simp [alpha_map_add_range, hbe]
    · show Stream32.mk _ _ = Stream32.mk _ _
      have e4 : (front ++ [q.1, q.2]).length + 2 * ps.length
          = front.length + 2 * (ps.length + 1) := by
        simp [List.length_append]
        try omega
      rw [e4]

theorem keepValid_of_valid : ∀ (m : AlphaMap), (∀ r ∈ m, r.1 ≤ r.2) → keepValid m = m := by
  intro m
  induction m with
  | nil =>
    intro _
    rfl
  | cons q ps ih =>
    intro h
    rw [keepValid_cons,
      if_neg (by have := h q (List.mem_cons_self q ps); omega),
      ih (fun r hr => h r (List.mem_cons_of_mem q hr))]

/-- Decoding a well-formed binary block: signature matched, count read, and
the loop appends exactly the accepted pairs, in file order. -/
theorem read_bin_on_block (ps : List AlphaRange) (rest : List Nat)
    (hp : ∀ q ∈ ps, q.1 < U32 ∧ q.2 < U32) (hlen : ps.length < 2147483648) :
    alpha_map_read_bin ⟨ALPHAMAP_SIGNATURE :: ps.length :: (rangeWords ps ++ rest), 0⟩
      = (some (keepValid ps),
         ⟨ALPHAMAP_SIGNATURE :: ps.length :: (rangeWords ps ++ rest),
          2 + 2 * ps.length⟩) := by
  have hsig : ALPHAMAP_SIGNATURE < U32 := by decide
  have hlenU : ps.length < U32 := by rw [U32_eq]; omega
  have h0 : file_read_int32 ⟨ALPHAMAP_SIGNATURE :: ps.length :: (rangeWords ps ++ rest), 0⟩
      = some (ALPHAMAP_SIGNATURE,
          ⟨ALPHAMAP_SIGNATURE :: ps.length :: (rangeWords ps ++ rest), 1⟩) := by
    have h := file_read_int32_at [] ALPHAMAP_SIGNATURE
      (ps.length :: (rangeWords ps ++ rest)) hsig
    simpa using h
  have h1 : readInt32D ⟨ALPHAMAP_SIGNATURE :: ps.length :: (rangeWords ps ++ rest), 1⟩
      = (ps.length, ⟨ALPHAMAP_SIGNATURE :: ps.length :: (rangeWords ps ++ rest), 2⟩) := by
    have h := readInt32D_at [ALPHAMAP_SIGNATURE] ps.length (rangeWords ps ++ rest) hlenU
    simpa using h
  have h2 : (toSigned32 ps.length).toNat = ps.length := by
    unfold toSigned32
    rw [if_pos hlen]
    simp
  have h3 := readRangesGo_spec ps alpha_map_new [ALPHAMAP_SIGNATURE, ps.length] rest hp
  simp only [List.cons_append, List.nil_append, List.length_cons, List.length_nil] at h3
  unfold alpha_map_read_bin
  rw [h0]
  dsimp only
  rw [if_pos rfl, h1]
  dsimp only
  rw [h2, h3]
  dsimp only [alpha_map_new]
  rw [List.nil_append]

/-- Claim C3: encoding any alphabet map with `alpha_map_write_bin` and
decoding the produced words with `alpha_map_read_bin` yields a map with the
same begin/end pairs in the same order (the ranges satisfy the insertion
invariant `begin ≤ end` over 32-bit values, and the count fits the `int32`
it is stored in). -/
theorem C3_binary_roundtrip (m : AlphaMap)
    (hv : ∀ r ∈ m, r.1 ≤ r.2 ∧ r.2 < U32) (hlen : m.length < 2147483648) :
    (alpha_map_read_bin ⟨alpha_map_write_bin m, 0⟩).1 = some m := by
  have hp : ∀ q ∈ m, q.1 < U32 ∧ q.2 < U32 :=
    fun q hq => ⟨lt_of_le_of_lt (hv q hq).1 (hv q hq).2, (hv q hq).2⟩
  have hw : alpha_map_write_bin m
      = ALPHAMAP_SIGNATURE :: m.length :: (rangeWords m ++ []) := by
    unfold alpha_map_write_bin
    rw [u32_of_lt (by rw [U32_eq]; omega), List.append_nil]
  rw [hw, read_bin_on_block m [] hp hlen]
  dsimp only
  rw [keepValid_of_valid m (fun r hr => (hv r hr).1)]

/-- Concrete instance of `C3_binary_roundtrip` on the example two-range
map. -/
theorem C3_binary_roundtrip_witness :
    (alpha_map_read_bin ⟨alpha_map_write_bin [(0x41, 0x5A), (0x61, 0x7A)], 0⟩).1
      = some [(0x41, 0x5A), (0x61, 0x7A)] :=
  C3_binary_roundtrip [(0x41, 0x5A), (0x61, 0x7A)] (by decide) (by decide)

/-- Claim C4 amended: on a signature match `alpha_map_read_bin` reads the
count and appends the decoded pairs in file order through
`alpha_map_add_range`, which drops every pair with `begin > end`; the
resulting map's ranges are therefore exactly the decoded pairs with
`begin ≤ end`, in file order — not all `N` pairs. -/
theorem C4_read_bin_amended (ps : List AlphaRange) (rest : List Nat)
    (hp : ∀ q ∈ ps, q.1 < U32 ∧ q.2 < U32) (hlen : ps.length < 2147483648) :
    (alpha_map_read_bin
        ⟨ALPHAMAP_SIGNATURE :: ps.length :: (rangeWords ps ++ rest), 0⟩).1
      = some (keepValid ps) := by
  rw [read_bin_on_block ps rest hp hlen]

/-- Concrete instance of `C4_read_bin_amended`: a block holding the invalid
pair `(5, 2)` followed by the valid pair `(0x41, 0x5A)` decodes to the map
holding only the valid pair. -/
theorem C4_read_bin_amended_witness :
    (alpha_map_read_bin
        ⟨ALPHAMAP_SIGNATURE :: [(5, 2), (0x41, 0x5A)].length
            :: (rangeWords [(5, 2), (0x41, 0x5A)] ++ []), 0⟩).1
      = some (keepValid [(5, 2), (0x41, 0x5A)]) :=
  C4_read_bin_amended [(5, 2), (0x41, 0x5A)] [] (by decide) (by decide)
